import Mathlib

/-!
Shallow embedding of the squeakyv versioned key-value store.

The authoritative core is the SQL: `src/sql/create-database.autogen.sql`
(table `kv`, partial unique index `kv_active_key`, trigger `kv_swap_active`)
and the four queries of `src/sql/database-operations.autogen.yesql.sql`
(get-current-value, set-value, delete-key, list-active-keys).  The Go target
`src/targets/go/squeakyv.go` wraps these queries through a `CacheClient`
holding a nullable database handle.

A database state is the list of `kv` rows in rowid (insertion) order together
with the next fresh rowid.  Values are byte lists (BLOB), keys are strings
(TEXT), timestamps are naturals (milliseconds).  The storage engine itself is
an external collaborator; its I/O failure modes are outside the embedding, so
each SQL statement is modelled as the state transformation it performs when
the engine executes it.
-/

namespace Squeakyv

/-- A BLOB payload: a finite sequence of bytes. -/
abbrev Bytes := List Nat

/-- One row of the `kv` table: implicit SQLite `rowid`, the four declared
columns `inserted_at` (INTEGER, ms), `is_active` (0/1, modelled as `Bool`
through the `CHECK (is_active IN (0,1))` constraint), `key` (TEXT) and
`value` (BLOB). -/
structure Row where
  rowid : Nat
  inserted_at : Nat
  is_active : Bool
  key : String
  value : Bytes
deriving DecidableEq, Repr

/-- The `kv` table: rows in rowid (= insertion) order, plus the next fresh
rowid the engine will assign. -/
structure DB where
  rows : List Row
  nextRowid : Nat
deriving DecidableEq, Repr

/-- A freshly initialized database: empty `kv` table (SQLite rowids start
at 1). -/
def DB.init : DB := ⟨[], 1⟩

/-- The per-row effect of the `kv_swap_active` trigger body
`UPDATE kv SET is_active = 0 WHERE key = NEW.key AND is_active = 1`:
a row matching the WHERE clause is retired, any other row is untouched. -/
def retireIf (k : String) (r : Row) : Row :=
  if r.key = k ∧ r.is_active = true then { r with is_active := false } else r

/-- The whole-table effect of
`UPDATE kv SET is_active = 0 WHERE key = :k AND is_active = 1`
(the body of the `kv_swap_active` trigger, and also the entire
`delete-key` statement). -/
def swapActive (k : String) (rows : List Row) : List Row :=
  rows.map (retireIf k)

/-- Query `set-value(key, value)!`: `INSERT INTO kv (key, value) VALUES (:key, :value)`.
The BEFORE INSERT trigger `kv_swap_active` retires the prior active row for
the same key within the same statement, then the new row is appended with
the defaulted columns `inserted_at = now` (engine clock) and `is_active = 1`,
receiving the next rowid.  The whole statement is one atomic transition. -/
def setValue (db : DB) (k : String) (v : Bytes) (now : Nat) : DB :=
  ⟨swapActive k db.rows ++ [⟨db.nextRowid, now, true, k, v⟩], db.nextRowid + 1⟩

/-- Query `delete-key(key)!`: `UPDATE kv SET is_active = 0 WHERE key = :key AND
is_active = 1` — a soft delete that retires the active row, if any. -/
def deleteKey (db : DB) (k : String) : DB :=
  ⟨swapActive k db.rows, db.nextRowid⟩

/-- Query `get-current-value(key)^`: `SELECT value FROM kv WHERE key = :key AND
is_active = 1`, returning one row or the absent sentinel (`^` marks a
single-row query; the Go wrapper turns no-rows into a nil result). -/
def getCurrentValue (db : DB) (k : String) : Option Bytes :=
  ((db.rows.filter (fun r => r.key = k ∧ r.is_active = true)).head?).map Row.value

/-- One insertion step of one concrete materialization of
`ORDER BY inserted_at DESC`: the incoming row is placed after every
already-placed row whose `inserted_at` is at least its own.  That equal
timestamps thereby keep their arrival order is a determinization the query
itself does not fix: it names no secondary sort key, so the engine is free
to order equal timestamps arbitrarily (see `listActiveKeysAdmissible`). -/
def insertDesc (r : Row) : List Row → List Row
  | [] => [r]
  | x :: xs => if r.inserted_at ≤ x.inserted_at then x :: insertDesc r xs else r :: x :: xs

/-- One concrete materialization of `ORDER BY inserted_at DESC`, folding the
rows in table (rowid) order through `insertDesc`.  Only its timestamp
ordering and its membership are promised by the query; its tie order is one
admissible choice among many. -/
def sortByTimeDesc (rows : List Row) : List Row :=
  rows.foldl (fun acc r => insertDesc r acc) []

/-- Query `list-active-keys()`: `SELECT key FROM kv WHERE is_active = 1 ORDER BY
inserted_at DESC`, materialized through `sortByTimeDesc` — one admissible
outcome of the query; `listActiveKeysAdmissible` below delimits all of them. -/
def listActiveKeys (db : DB) : List String :=
  (sortByTimeDesc (db.rows.filter (fun r => r.is_active = true))).map Row.key

/-- All that `ORDER BY inserted_at DESC` promises about the emitted row
order: no row is followed by one with a strictly greater timestamp. -/
def sortedByTimeDesc (l : List Row) : Prop :=
  l.Pairwise (fun a b => b.inserted_at ≤ a.inserted_at)

/-- The row sequences the query
`SELECT key FROM kv WHERE is_active = 1 ORDER BY inserted_at DESC` may emit:
exactly the active rows (each once), in any order consistent with
`inserted_at` descending.  The query names no secondary sort key, so the
relative order of rows with equal `inserted_at` is left to the engine. -/
def listActiveKeysAdmissible (db : DB) (out : List Row) : Prop :=
  out.Perm (db.rows.filter (fun r => r.is_active = true)) ∧ sortedByTimeDesc out

/-- Number of active rows a key currently has (the cardinality the partial
unique index `kv_active_key ON kv(key) WHERE is_active = 1` bounds by 1). -/
def countActive (db : DB) (k : String) : Nat :=
  (db.rows.filter (fun r => r.key = k ∧ r.is_active = true)).length

/-- Outcome of a Go `CacheClient` method call: a normal return, or the
runtime panic raised when the method dereferences a nil `*sql.DB` handle
(`database/sql` methods on a nil receiver fault; this is a crash, not an
error value handed to the caller). -/
inductive GoResult (α : Type) where
  | ok : α → GoResult α
  | nilDeref : GoResult α
deriving DecidableEq, Repr

/-- Type `CacheClient` of `src/targets/go/squeakyv.go`: a database handle that
`Close` sets to nil (`none`), and the path it was opened with. -/
structure Client where
  db : Option DB
  path : String
deriving DecidableEq, Repr

/-- Constructor `NewCacheClient(path)`: opens the store and idempotently installs the
schema, yielding a handle on an initialized database. -/
def newCacheClient (path : String) : Client := ⟨some DB.init, path⟩

/-- Method `CacheClient.Get`: `return _getCurrentValue(c.db, key)`.  The method
passes `c.db` to the query helper with no nil check, so on a closed handle
the call dereferences nil. -/
def Client.get (c : Client) (k : String) : GoResult (Option Bytes) :=
  match c.db with
  | some d => .ok (getCurrentValue d k)
  | none => .nilDeref

/-- Method `CacheClient.Set`: `return _setValue(c.db, key, value)`; same nil-handle
behaviour as `Get`.  On success the store state advances by `setValue`. -/
def Client.set (c : Client) (k : String) (v : Bytes) (now : Nat) : GoResult Client :=
  match c.db with
  | some d => .ok ⟨some (setValue d k v now), c.path⟩
  | none => .nilDeref

/-- Method `CacheClient.Delete`: `return _deleteKey(c.db, key)`. -/
def Client.delete (c : Client) (k : String) : GoResult Client :=
  match c.db with
  | some d => .ok ⟨some (deleteKey d k), c.path⟩
  | none => .nilDeref

/-- Method `CacheClient.ListKeys`: `return _listActiveKeys(c.db)`. -/
def Client.listKeys (c : Client) : GoResult (List String) :=
  match c.db with
  | some d => .ok (listActiveKeys d)
  | none => .nilDeref

/-- Method `CacheClient.Close`: under the handle mutex, if the handle is non-nil it
is closed and set to nil and the close error (nil on the success path of the
engine) is returned; otherwise nil is returned immediately. -/
def Client.close (c : Client) : Client × GoResult Unit :=
  match c.db with
  | some _ => (⟨none, c.path⟩, .ok ())
  | none => (c, .ok ())

/-- Database states reachable from a fresh store through the two mutating
queries (the two read queries do not change state). -/
inductive Reachable : DB → Prop
  | init : Reachable DB.init
  | set : ∀ {db : DB} (k : String) (v : Bytes) (now : Nat),
      Reachable db → Reachable (setValue db k v now)
  | del : ∀ {db : DB} (k : String), Reachable db → Reachable (deleteKey db k)

/-- One caller-visible operation on the store, as a state transition:
`set-value` and `delete-key` transform the state, `get-current-value` and
`list-active-keys` are reads leaving it unchanged. -/
inductive Step : DB → DB → Prop
  | set : ∀ (db : DB) (k : String) (v : Bytes) (now : Nat), Step db (setValue db k v now)
  | del : ∀ (db : DB) (k : String), Step db (deleteKey db k)
  | readGet : ∀ (db : DB) (_k : String), Step db db
  | readList : ∀ (db : DB), Step db db

/-- Any finite sequence of operations. -/
inductive Steps : DB → DB → Prop
  | refl : ∀ (db : DB), Steps db db
  | tail : ∀ {a b c : DB}, Steps a b → Step b c → Steps a c

/-- The trigger body never changes a row's rowid. -/
theorem retireIf_rowid (k : String) (r : Row) : (retireIf k r).rowid = r.rowid := by
  unfold retireIf; split <;> rfl

/-- The trigger body never changes a row's key. -/
theorem retireIf_key (k : String) (r : Row) : (retireIf k r).key = r.key := by
  unfold retireIf; split <;> rfl

/-- The trigger body never changes a row's timestamp. -/
theorem retireIf_time (k : String) (r : Row) : (retireIf k r).inserted_at = r.inserted_at := by
  unfold retireIf; split <;> rfl

/-- The trigger body never changes a row's value. -/
theorem retireIf_value (k : String) (r : Row) : (retireIf k r).value = r.value := by
  unfold retireIf; split <;> rfl

/-- A row outside the WHERE clause of the retire UPDATE is untouched. -/
theorem retireIf_of_not (k : String) (r : Row) (h : ¬(r.key = k ∧ r.is_active = true)) :
    retireIf k r = r := by
  unfold retireIf; split
  case isTrue hc => exact absurd hc h
  case isFalse => rfl

/-- An inactive row is untouched by the retire UPDATE. -/
theorem retireIf_of_inactive (k : String) (r : Row) (h : r.is_active = false) :
    retireIf k r = r := by
  apply retireIf_of_not
  intro hc
  rw [hc.2] at h
  exact Bool.noConfusion h

/-- After the retire UPDATE no row of its output matches the active filter
for the retired key. -/
theorem retireIf_not_match (k : String) (r : Row) :
    ¬((retireIf k r).key = k ∧ (retireIf k r).is_active = true) := by
  unfold retireIf; split
  case isTrue hc => intro h; exact Bool.noConfusion h.2
  case isFalse hc => exact hc

/-- Filtering commutes with a map that does not change the filter's verdict. -/
theorem filter_map_comm (p : Row → Bool) (f : Row → Row) (h : ∀ r, p (f r) = p r)
    (l : List Row) : (l.map f).filter p = (l.filter p).map f := by
  induction l with
  | nil => rfl
  | cons r t ih =>
    simp only [List.map_cons, List.filter_cons, h r]
    cases hp : p r
    · simpa [hp] using ih
    · simpa [hp] using ih

/-- The retire UPDATE for key `k` empties the active filter for `k`. -/
theorem filter_swapActive_self (k : String) (rows : List Row) :
    (swapActive k rows).filter (fun r => r.key = k ∧ r.is_active = true) = [] := by
  rw [List.filter_eq_nil_iff]
  intro a ha
  unfold swapActive at ha
  rw [List.mem_map] at ha
  obtain ⟨s, _, rfl⟩ := ha
  simpa using retireIf_not_match k s

/-- The retire UPDATE does not change whether a row matches the active
filter of a different key. -/
theorem retireIf_filter_other (k k' : String) (hk : k' ≠ k) (r : Row) :
    (decide ((retireIf k r).key = k' ∧ (retireIf k r).is_active = true)) =
      (decide (r.key = k' ∧ r.is_active = true)) := by
  unfold retireIf
  split
  case isTrue hc =>
    have h1 : ¬(r.key = k') := fun h => hk (h.symm.trans hc.1)
    apply decide_eq_decide.mpr
    constructor
    · rintro ⟨h, hfalse⟩
      simp at hfalse
    · rintro ⟨h, _⟩
      exact absurd h h1
  case isFalse => rfl

/-- The retire UPDATE for key `k` leaves the active filter for any other
key untouched. -/
theorem filter_swapActive_other (k k' : String) (hk : k' ≠ k) (rows : List Row) :
    (swapActive k rows).filter (fun r => r.key = k' ∧ r.is_active = true) =
      rows.filter (fun r => r.key = k' ∧ r.is_active = true) := by
  unfold swapActive
  rw [filter_map_comm _ _ (retireIf_filter_other k k' hk)]
  have h2 : ∀ r ∈ rows.filter (fun r => r.key = k' ∧ r.is_active = true),
      retireIf k r = id r := by
    intro r hr
    rw [List.mem_filter] at hr
    have h3 := of_decide_eq_true hr.2
    exact retireIf_of_not k r (fun hc => hk (h3.1.symm.trans hc.1))
  rw [List.map_congr_left h2, List.map_id]

/-- The retire UPDATE preserves each key-only filter verbatim on keys. -/
theorem filter_key_swapActive (k k2 : String) (rows : List Row) :
    ((swapActive k rows).filter (fun r => r.key = k2)).length =
      (rows.filter (fun r => r.key = k2)).length := by
  unfold swapActive
  have h : ∀ r, (decide ((retireIf k r).key = k2)) = (decide (r.key = k2)) := by
    intro r
    simp [retireIf_key]
  rw [filter_map_comm _ _ h, List.length_map]

/-- A row that a retire UPDATE for key `k` cannot touch stays in the table
verbatim. -/
theorem mem_swapActive_of_not (k : String) (r : Row) (rows : List Row)
    (hr : r ∈ rows) (h : ¬(r.key = k ∧ r.is_active = true)) : r ∈ swapActive k rows := by
  unfold swapActive
  rw [← retireIf_of_not k r h]
  exact List.mem_map_of_mem _ hr

/-- After `set-value(k, v)` the active filter for `k` holds exactly the newly
inserted row. -/
theorem filter_setValue_self (db : DB) (k : String) (v : Bytes) (now : Nat) :
    (setValue db k v now).rows.filter (fun r => r.key = k ∧ r.is_active = true) =
      [⟨db.nextRowid, now, true, k, v⟩] := by
  unfold setValue
  dsimp only
  rw [List.filter_append, filter_swapActive_self]
  simp

/-- Reading with `get-current-value` right after `set-value` on the same key returns the
value just written. -/
theorem getCurrentValue_setValue_self (db : DB) (k : String) (v : Bytes) (now : Nat) :
    getCurrentValue (setValue db k v now) k = some v := by
  unfold getCurrentValue
  rw [filter_setValue_self]
  rfl

/-- Writing with `set-value` on one key does not change what `get-current-value` returns
for any other key. -/
theorem getCurrentValue_setValue_other (db : DB) (k k' : String) (v : Bytes) (now : Nat)
    (hk : k' ≠ k) : getCurrentValue (setValue db k v now) k' = getCurrentValue db k' := by
  unfold getCurrentValue setValue
  dsimp only
  rw [List.filter_append, filter_swapActive_other k k' hk]
  have hk2 : ¬(k = k') := fun h => hk h.symm
  have h1 : ([⟨db.nextRowid, now, true, k, v⟩] : List Row).filter
      (fun r => r.key = k' ∧ r.is_active = true) = [] := by
    simp [hk2]
  rw [h1, List.append_nil]

/-- After `delete-key(k)` the key has no active row, so `get-current-value`
returns the absent sentinel. -/
theorem getCurrentValue_deleteKey_self (db : DB) (k : String) :
    getCurrentValue (deleteKey db k) k = none := by
  unfold getCurrentValue deleteKey
  dsimp only
  rw [filter_swapActive_self]
  rfl

/-- Running `delete-key` on one key does not change what `get-current-value` returns
for any other key. -/
theorem getCurrentValue_deleteKey_other (db : DB) (k k' : String) (hk : k' ≠ k) :
    getCurrentValue (deleteKey db k) k' = getCurrentValue db k' := by
  unfold getCurrentValue deleteKey
  dsimp only
  rw [filter_swapActive_other k k' hk]

/-- Running `set-value` leaves its key with exactly one active row. -/
theorem countActive_setValue_self (db : DB) (k : String) (v : Bytes) (now : Nat) :
    countActive (setValue db k v now) k = 1 := by
  unfold countActive
  rw [filter_setValue_self]
  rfl

/-- Running `set-value` does not change the number of active rows of other keys. -/
theorem countActive_setValue_other (db : DB) (k k' : String) (v : Bytes) (now : Nat)
    (hk : k' ≠ k) : countActive (setValue db k v now) k' = countActive db k' := by
  unfold countActive setValue
  dsimp only
  rw [List.filter_append, filter_swapActive_other k k' hk]
  have hk2 : ¬(k = k') := fun h => hk h.symm
  have h1 : ([⟨db.nextRowid, now, true, k, v⟩] : List Row).filter
      (fun r => r.key = k' ∧ r.is_active = true) = [] := by
    simp [hk2]
  rw [h1, List.append_nil]

/-- Running `delete-key` leaves its key with no active row. -/
theorem countActive_deleteKey_self (db : DB) (k : String) :
    countActive (deleteKey db k) k = 0 := by
  unfold countActive deleteKey
  dsimp only
  rw [filter_swapActive_self]
  rfl

/-- Running `delete-key` does not change the number of active rows of other keys. -/
theorem countActive_deleteKey_other (db : DB) (k k' : String) (hk : k' ≠ k) :
    countActive (deleteKey db k) k' = countActive db k' := by
  unfold countActive deleteKey
  dsimp only
  rw [filter_swapActive_other k k' hk]

/-- The partial unique index `kv_active_key` invariant: every reachable
database state has at most one active row per key. -/
theorem reachable_countActive_le_one {db : DB} (h : Reachable db) :
    ∀ k, countActive db k ≤ 1 := by
  induction h with
  | init =>
    intro k
    exact Nat.zero_le 1
  | set k0 v now _ ih =>
    intro k
    by_cases hk : k = k0
    · subst hk
      rw [countActive_setValue_self]
    · rw [countActive_setValue_other _ _ _ _ _ hk]
      exact ih k
  | del k0 _ ih =>
    intro k
    by_cases hk : k = k0
    · subst hk
      rw [countActive_deleteKey_self]
      exact Nat.zero_le 1
    · rw [countActive_deleteKey_other _ _ _ hk]
      exact ih k

/-- Membership through one step of the descending insertion. -/
theorem mem_insertDesc (r x : Row) (l : List Row) :
    x ∈ insertDesc r l ↔ x = r ∨ x ∈ l := by
  induction l with
  | nil => simp [insertDesc]
  | cons y ys ih =>
    unfold insertDesc
    split
    · simp only [List.mem_cons, ih]
      tauto
    · simp only [List.mem_cons]

/-- Membership through the whole stable sort, relative to an accumulator. -/
theorem mem_foldl_insertDesc (l : List Row) :
    ∀ (acc : List Row) (x : Row),
      (x ∈ l.foldl (fun a r => insertDesc r a) acc ↔ x ∈ acc ∨ x ∈ l) := by
  induction l with
  | nil => simp
  | cons r t ih =>
    intro acc x
    simp only [List.foldl_cons, ih, mem_insertDesc, List.mem_cons]
    tauto

/-- The stable sort is a reordering: it has exactly the members of its
input. -/
theorem mem_sortByTimeDesc (l : List Row) (x : Row) :
    x ∈ sortByTimeDesc l ↔ x ∈ l := by
  unfold sortByTimeDesc
  rw [mem_foldl_insertDesc]
  simp

/-- A key is listed by `list-active-keys` exactly when it currently has an
active row. -/
theorem mem_listActiveKeys (db : DB) (k : String) :
    k ∈ listActiveKeys db ↔ ∃ r ∈ db.rows, r.key = k ∧ r.is_active = true := by
  unfold listActiveKeys
  simp only [List.mem_map, mem_sortByTimeDesc, List.mem_filter]
  constructor
  · rintro ⟨r, ⟨hr, ha⟩, rfl⟩
    exact ⟨r, hr, rfl, of_decide_eq_true ha⟩
  · rintro ⟨r, hr, rfl, ha⟩
    exact ⟨r, ⟨hr, decide_eq_true ha⟩, rfl⟩

/-- The tie-breaking order asserted for the output of `list-active-keys`:
strictly later timestamp first, and among equal timestamps the smaller
rowid (earlier insertion) first.  The query guarantees no such tie-break;
the definition exists to state that. -/
def listOrd (a b : Row) : Prop :=
  b.inserted_at < a.inserted_at ∨ (a.inserted_at = b.inserted_at ∧ a.rowid < b.rowid)

/-- One insertion step reorders: the result is a permutation of the row
consed onto the accumulator. -/
theorem perm_insertDesc (r : Row) (l : List Row) : (insertDesc r l).Perm (r :: l) := by
  induction l with
  | nil => exact List.Perm.refl _
  | cons x xs ih =>
    unfold insertDesc
    split
    · exact (List.Perm.cons x ih).trans (List.Perm.swap r x xs)
    · exact List.Perm.refl _

/-- The whole fold reorders: its result is a permutation of the accumulator
followed by the input. -/
theorem perm_foldl_insertDesc (l : List Row) :
    ∀ acc : List Row, (l.foldl (fun a r => insertDesc r a) acc).Perm (acc ++ l) := by
  induction l with
  | nil =>
    intro acc
    simp
  | cons r t ih =>
    intro acc
    simp only [List.foldl_cons]
    exact (ih (insertDesc r acc)).trans
      (((perm_insertDesc r acc).append_right t).trans List.perm_middle.symm)

/-- The materialization emits exactly the rows it was given. -/
theorem perm_sortByTimeDesc (l : List Row) : (sortByTimeDesc l).Perm l := by
  unfold sortByTimeDesc
  simpa using perm_foldl_insertDesc l []

/-- Inserting into a timestamp-descending list keeps it timestamp
descending. -/
theorem sorted_insertDesc (r : Row) (acc : List Row) (h : sortedByTimeDesc acc) :
    sortedByTimeDesc (insertDesc r acc) := by
  induction acc with
  | nil => simp [insertDesc, sortedByTimeDesc]
  | cons x xs ih =>
    rw [sortedByTimeDesc, List.pairwise_cons] at h
    unfold insertDesc
    split
    case isTrue hle =>
      rw [sortedByTimeDesc, List.pairwise_cons]
      constructor
      · intro y hy
        rw [mem_insertDesc] at hy
        rcases hy with rfl | hy
        · exact hle
        · exact h.1 y hy
      · exact ih h.2
    case isFalse hgt =>
      have hx : x.inserted_at < r.inserted_at := Nat.lt_of_not_le hgt
      rw [sortedByTimeDesc, List.pairwise_cons]
      refine ⟨?_, List.pairwise_cons.mpr h⟩
      intro y hy
      rcases List.mem_cons.mp hy with rfl | hy
      · exact Nat.le_of_lt hx
      · exact Nat.le_trans (h.1 y hy) (Nat.le_of_lt hx)

/-- The fold keeps the accumulator timestamp descending throughout. -/
theorem sorted_foldl_insertDesc (l : List Row) :
    ∀ acc : List Row, sortedByTimeDesc acc →
      sortedByTimeDesc (l.foldl (fun a r => insertDesc r a) acc) := by
  induction l with
  | nil =>
    intro acc h
    simpa using h
  | cons r t ih =>
    intro acc h
    simp only [List.foldl_cons]
    exact ih _ (sorted_insertDesc r acc h)

/-- The materialization is ordered as the query's ORDER BY demands. -/
theorem sorted_sortByTimeDesc (l : List Row) : sortedByTimeDesc (sortByTimeDesc l) := by
  unfold sortByTimeDesc
  exact sorted_foldl_insertDesc l [] (by simp [sortedByTimeDesc])

/-- The client's materialized result is one admissible outcome of the
`list-active-keys` query. -/
theorem listActiveKeys_admissible (db : DB) :
    listActiveKeysAdmissible db
      (sortByTimeDesc (db.rows.filter (fun r => r.is_active = true))) :=
  ⟨perm_sortByTimeDesc _, sorted_sortByTimeDesc _⟩

/-- Structural invariant of reachable states: rowids are assigned by an
increasing counter, so every stored rowid is below the next fresh one and
the table is in strictly increasing rowid order. -/
theorem reachable_rowids {db : DB} (h : Reachable db) :
    (∀ r ∈ db.rows, r.rowid < db.nextRowid) ∧
      db.rows.Pairwise (fun a b => a.rowid < b.rowid) := by
  induction h with
  | init => exact ⟨by simp [DB.init], List.Pairwise.nil⟩
  | set k v now _ ih =>
    constructor
    · intro r hr
      show r.rowid < _ + 1
      rcases List.mem_append.mp hr with hr | hr
      · unfold swapActive at hr
        rw [List.mem_map] at hr
        obtain ⟨s, hs, rfl⟩ := hr
        rw [retireIf_rowid]
        exact Nat.lt_succ_of_lt (ih.1 s hs)
      · rcases List.mem_singleton.mp hr with rfl
        exact Nat.lt_succ_self _
    · show (swapActive k _ ++ [_]).Pairwise _
      rw [List.pairwise_append]
      refine ⟨?_, List.pairwise_singleton _ _, ?_⟩
      · exact List.Pairwise.map (retireIf k)
          (fun a b hab => by rw [retireIf_rowid, retireIf_rowid]; exact hab) ih.2
      · intro a ha b hb
        rcases List.mem_singleton.mp hb with rfl
        unfold swapActive at ha
        rw [List.mem_map] at ha
        obtain ⟨s, hs, rfl⟩ := ha
        rw [retireIf_rowid]
        exact ih.1 s hs
  | del k _ ih =>
    constructor
    · intro r hr
      unfold deleteKey swapActive at hr
      rw [List.mem_map] at hr
      obtain ⟨s, hs, rfl⟩ := hr
      rw [retireIf_rowid]
      exact ih.1 s hs
    · show (swapActive k _).Pairwise _
      exact List.Pairwise.map (retireIf k)
        (fun a b hab => by rw [retireIf_rowid, retireIf_rowid]; exact hab) ih.2

/-- A `delete-key` whose WHERE clause matches nothing leaves the table
verbatim: the UPDATE touches zero rows. -/
theorem deleteKey_noop (db : DB) (k : String)
    (h : ∀ r ∈ db.rows, ¬(r.key = k ∧ r.is_active = true)) : deleteKey db k = db := by
  have h1 : swapActive k db.rows = db.rows := by
    unfold swapActive
    rw [List.map_congr_left (fun r hr => retireIf_of_not k r (h r hr)), List.map_id']
  unfold deleteKey
  rw [h1]

/-- A 256-byte ASCII key: one byte beyond the 255-byte bound stated for
`key` (the bound appears as `maxLength` in the schema definition but in no
CHECK constraint and in no client code). -/
def longKey : String := String.mk (List.replicate 256 'a')

example : getCurrentValue (setValue DB.init "a" [1,2] 5) "a" = some [1,2] := by decide

example : getCurrentValue (deleteKey (setValue DB.init "a" [1,2] 5) "a") "a" = none := by decide

example : listActiveKeys (setValue (setValue DB.init "a" [1] 1) "b" [2] 2) = ["b", "a"] := by decide

example : listActiveKeys (setValue (setValue (setValue DB.init "a" [1] 1) "b" [2] 2) "a" [3] 3)
    = ["a", "b"] := by decide

example : listActiveKeys (setValue (setValue DB.init "a" [1] 7) "b" [2] 7) = ["a", "b"] := by decide

/-- C1: at every reachable state at most one row per key is active (the
`kv_active_key` partial unique index invariant), and `set-value` swaps the
active row atomically: it is a single transition after which the written key
has exactly one active row, every other key's active-row count is unchanged,
and no key that had an active row is left without one. -/
theorem set_swap_active_unique (db : DB) (h : Reachable db) :
    (∀ k, countActive db k ≤ 1) ∧
    (∀ k v now, countActive (setValue db k v now) k = 1) ∧
    (∀ k k' v now, k' ≠ k → countActive (setValue db k v now) k' = countActive db k') ∧
    (∀ k' k v now, 1 ≤ countActive db k' → 1 ≤ countActive (setValue db k v now) k') := by
  refine ⟨reachable_countActive_le_one h, countActive_setValue_self db, ?_, ?_⟩
  · intro k k' v now hk
    exact countActive_setValue_other db k k' v now hk
  · intro k' k v now hge
    by_cases hk : k' = k
    · subst hk
      rw [countActive_setValue_self]
    · rw [countActive_setValue_other db k k' v now hk]
      exact hge

/-- C1 witness at a concrete reachable state. -/
theorem set_swap_active_unique_witness :
    countActive (setValue DB.init "a" [1] 0) "a" ≤ 1 ∧
    countActive (setValue (setValue DB.init "a" [1] 0) "a" [2] 1) "a" = 1 :=
  ⟨(set_swap_active_unique _ (Reachable.set "a" [1] 0 Reachable.init)).1 "a",
   (set_swap_active_unique _ (Reachable.set "a" [1] 0 Reachable.init)).2.1 "a" [2] 1⟩

/-- C2: on an open handle, `Set(k, v)` succeeds and an immediate `Get(k)` on
the resulting state returns exactly `v` — for every `v`, the zero-length
byte sequence included — and that result is a present value, never the
absent sentinel (`.ok none`) used for keys with no active row. -/
theorem set_then_get (c : Client) (d : DB) (k : String) (v : Bytes) (now : Nat)
    (h : c.db = some d) :
    c.set k v now = .ok ⟨some (setValue d k v now), c.path⟩ ∧
    Client.get ⟨some (setValue d k v now), c.path⟩ k = .ok (some v) ∧
    (.ok (some v) : GoResult (Option Bytes)) ≠ .ok none := by
  refine ⟨?_, ?_, ?_⟩
  · unfold Client.set
    rw [h]
  · unfold Client.get
    dsimp only
    rw [getCurrentValue_setValue_self]
  · intro hc
    injection hc with hc2
    exact Option.noConfusion hc2

/-- C2 witness: a concrete set of the empty byte sequence followed by get. -/
theorem set_then_get_witness :
    (newCacheClient ":memory:").set "a" [] 0 =
      .ok ⟨some (setValue DB.init "a" [] 0), ":memory:"⟩ ∧
    Client.get ⟨some (setValue DB.init "a" [] 0), ":memory:"⟩ "a" = .ok (some []) ∧
    (.ok (some []) : GoResult (Option Bytes)) ≠ .ok none :=
  set_then_get (newCacheClient ":memory:") DB.init "a" [] 0 rfl

/-- C5 counterexample: at a concrete reachable state holding two active rows
with equal `inserted_at` (7 ms), the row sequence listing "b" (rowid 2)
before "a" (rowid 1) is an admissible outcome of the `list-active-keys`
query — the query orders only by `inserted_at DESC` and names no secondary
key — yet it violates the claimed rowid tie-break order `listOrd`. -/
theorem list_keys_tiebreak_counterexample :
    Reachable (setValue (setValue DB.init "a" [1] 7) "b" [2] 7) ∧
    listActiveKeysAdmissible (setValue (setValue DB.init "a" [1] 7) "b" [2] 7)
      [⟨2, 7, true, "b", [2]⟩, ⟨1, 7, true, "a", [1]⟩] ∧
    ¬ ([⟨2, 7, true, "b", [2]⟩, ⟨1, 7, true, "a", [1]⟩] : List Row).Pairwise listOrd := by
  have hfil : (setValue (setValue DB.init "a" [1] 7) "b" [2] 7).rows.filter
      (fun r => r.is_active = true) =
      [⟨1, 7, true, "a", [1]⟩, ⟨2, 7, true, "b", [2]⟩] := by decide
  refine ⟨Reachable.set "b" [2] 7 (Reachable.set "a" [1] 7 Reachable.init), ⟨?_, ?_⟩, ?_⟩
  · rw [hfil]
    exact List.Perm.swap _ _ _
  · refine List.Pairwise.cons ?_ (List.pairwise_singleton _ _)
    intro y hy
    rcases List.mem_singleton.mp hy with rfl
    exact Nat.le_refl 7
  · intro hp
    rcases List.pairwise_cons.mp hp with ⟨h1, _⟩
    rcases h1 _ (List.mem_cons_self _ _) with h2 | h2
    · exact absurd h2 (by decide)
    · exact absurd h2.2 (by decide)

/-- C5 amended: on every reachable state, every outcome the
`list-active-keys` query can produce lists exactly the keys that currently
have an active row, ordered by `inserted_at` descending; the query fixes no
order among equal timestamps (it has no secondary sort key), and the
client's materialized `listActiveKeys` result is one admissible outcome,
agreeing with every other up to the order of such ties. -/
theorem list_keys_sorted_ties_unspecified (db : DB) (out : List Row)
    (_h : Reachable db) (hout : listActiveKeysAdmissible db out) :
    (∀ k, k ∈ out.map Row.key ↔ ∃ r ∈ db.rows, r.key = k ∧ r.is_active = true) ∧
    sortedByTimeDesc out ∧
    (out.map Row.key).Perm (listActiveKeys db) ∧
    listActiveKeysAdmissible db
      (sortByTimeDesc (db.rows.filter (fun r => r.is_active = true))) := by
  refine ⟨?_, hout.2, ?_, listActiveKeys_admissible db⟩
  · intro k
    rw [List.mem_map]
    constructor
    · rintro ⟨r, hr, rfl⟩
      have hr2 := (hout.1.mem_iff).mp hr
      rw [List.mem_filter] at hr2
      exact ⟨r, hr2.1, rfl, of_decide_eq_true hr2.2⟩
    · rintro ⟨r, hr, rfl, hact⟩
      refine ⟨r, ?_, rfl⟩
      apply (hout.1.mem_iff).mpr
      rw [List.mem_filter]
      exact ⟨hr, decide_eq_true hact⟩
  · exact (hout.1.trans (perm_sortByTimeDesc _).symm).map Row.key

/-- C5 amended witness: a concrete reachable state, a concrete admissible
outcome, and the theorem's conclusions applied there. -/
theorem list_keys_sorted_ties_unspecified_witness :
    ("b" ∈ ([⟨1, 7, true, "a", [1]⟩, ⟨2, 7, true, "b", [2]⟩] : List Row).map Row.key ↔
      ∃ r ∈ (setValue (setValue DB.init "a" [1] 7) "b" [2] 7).rows,
        r.key = "b" ∧ r.is_active = true) ∧
    (([⟨1, 7, true, "a", [1]⟩, ⟨2, 7, true, "b", [2]⟩] : List Row).map Row.key).Perm
      (listActiveKeys (setValue (setValue DB.init "a" [1] 7) "b" [2] 7)) := by
  have hfil : (setValue (setValue DB.init "a" [1] 7) "b" [2] 7).rows.filter
      (fun r => r.is_active = true) =
      [⟨1, 7, true, "a", [1]⟩, ⟨2, 7, true, "b", [2]⟩] := by decide
  have hadm : listActiveKeysAdmissible (setValue (setValue DB.init "a" [1] 7) "b" [2] 7)
      [⟨1, 7, true, "a", [1]⟩, ⟨2, 7, true, "b", [2]⟩] := by
    refine ⟨?_, ?_⟩
    · rw [hfil]
    · refine List.Pairwise.cons ?_ (List.pairwise_singleton _ _)
      intro y hy
      rcases List.mem_singleton.mp hy with rfl
      exact Nat.le_refl 7
  have hre : Reachable (setValue (setValue DB.init "a" [1] 7) "b" [2] 7) :=
    Reachable.set "b" [2] 7 (Reachable.set "a" [1] 7 Reachable.init)
  exact ⟨(list_keys_sorted_ties_unspecified _ _ hre hadm).1 "b",
    (list_keys_sorted_ties_unspecified _ _ hre hadm).2.2.1⟩

/-- C6: `delete-key(k)` leaves `k` with no active row, so a following
`get-current-value(k)` returns the absent sentinel; deleting a key with no
active row is a state-preserving no-op; and on an open handle `Delete`
returns the non-error result. -/
theorem delete_then_absent (db d : DB) (k : String) (c : Client) :
    getCurrentValue (deleteKey db k) k = none ∧
    ((∀ r ∈ db.rows, ¬(r.key = k ∧ r.is_active = true)) → deleteKey db k = db) ∧
    (c.db = some d → c.delete k = .ok ⟨some (deleteKey d k), c.path⟩) := by
  refine ⟨getCurrentValue_deleteKey_self db k, deleteKey_noop db k, ?_⟩
  intro hc
  unfold Client.delete
  rw [hc]

/-- C6 witness: delete after set makes the key absent; delete of a never-set
key is a no-op; delete reports no error on an open handle. -/
theorem delete_then_absent_witness :
    getCurrentValue (deleteKey (setValue DB.init "a" [1] 0) "a") "a" = none ∧
    deleteKey DB.init "b" = DB.init ∧
    (newCacheClient "p").delete "a" = .ok ⟨some (deleteKey DB.init "a"), "p"⟩ := by
  refine ⟨(delete_then_absent (setValue DB.init "a" [1] 0) DB.init "a" (newCacheClient "p")).1,
    ?_, ?_⟩
  · exact (delete_then_absent DB.init DB.init "b" (newCacheClient "p")).2.1 (by simp [DB.init])
  · exact (delete_then_absent DB.init DB.init "a" (newCacheClient "p")).2.2 rfl

/-- C8: `Close` is idempotent: on any handle it returns the nil error, and
closing an already-closed handle changes nothing and returns the nil error
again — the method guards on the nil handle instead of dereferencing it. -/
theorem close_idempotent (c : Client) :
    (c.close).snd = .ok () ∧
    ((c.close).fst).close = ((c.close).fst, .ok ()) ∧
    (((c.close).fst).close).snd = .ok () := by
  obtain ⟨db, path⟩ := c
  cases db <;> simp [Client.close]

/-- C9: the empty string is an ordinary key: `Set("", v)` succeeds on an
open handle, `get-current-value("")` then returns `v`, and `""` is listed
by `list-active-keys`; no operation special-cases it. -/
theorem empty_key_accepted (c : Client) (d : DB) (v : Bytes) (now : Nat)
    (h : c.db = some d) :
    c.set "" v now = .ok ⟨some (setValue d "" v now), c.path⟩ ∧
    getCurrentValue (setValue d "" v now) "" = some v ∧
    "" ∈ listActiveKeys (setValue d "" v now) := by
  refine ⟨?_, getCurrentValue_setValue_self d "" v now, ?_⟩
  · unfold Client.set
    rw [h]
  · rw [mem_listActiveKeys]
    refine ⟨⟨d.nextRowid, now, true, "", v⟩, ?_, rfl, rfl⟩
    show _ ∈ swapActive "" d.rows ++ [_]
    exact List.mem_append_right _ (List.mem_singleton.mpr rfl)

/-- C9 witness at a concrete open handle. -/
theorem empty_key_accepted_witness :
    (newCacheClient "p").set "" [7] 3 = .ok ⟨some (setValue DB.init "" [7] 3), "p"⟩ ∧
    getCurrentValue (setValue DB.init "" [7] 3) "" = some [7] ∧
    "" ∈ listActiveKeys (setValue DB.init "" [7] 3) :=
  empty_key_accepted (newCacheClient "p") DB.init [7] 3 rfl

/-- C3 counterexample: on a freshly closed handle every operation hits the
nil database handle — the call dereferences nil (`GoResult.nilDeref`, the Go
runtime panic), it does not return a `ClosedError`; indeed no `ClosedError`
exists anywhere in the code. -/
theorem closed_ops_counterexample :
    (((newCacheClient ":memory:").close).fst).get "k" = GoResult.nilDeref ∧
    (((newCacheClient ":memory:").close).fst).set "k" [] 0 = GoResult.nilDeref ∧
    (((newCacheClient ":memory:").close).fst).delete "k" = GoResult.nilDeref ∧
    (((newCacheClient ":memory:").close).fst).listKeys = GoResult.nilDeref :=
  ⟨rfl, rfl, rfl, rfl⟩

/-- C3 amended: after `Close` the handle's database pointer is nil, and every
subsequent `Get`, `Set`, `Delete` or `ListKeys` dereferences that nil handle
(a runtime panic), rather than failing with a `ClosedError`. -/
theorem closed_ops_nil_deref (c : Client) (k : String) (v : Bytes) (now : Nat)
    (h : c.db = none) :
    c.get k = .nilDeref ∧ c.set k v now = .nilDeref ∧ c.delete k = .nilDeref ∧
    c.listKeys = .nilDeref ∧ (∀ c0 : Client, ((c0.close).fst).db = none) := by
  refine ⟨?_, ?_, ?_, ?_, ?_⟩
  · unfold Client.get
    rw [h]
  · unfold Client.set
    rw [h]
  · unfold Client.delete
    rw [h]
  · unfold Client.listKeys
    rw [h]
  · intro c0
    obtain ⟨db0, p0⟩ := c0
    cases db0 <;> rfl

/-- C3 amended witness at a concrete closed handle. -/
theorem closed_ops_nil_deref_witness :
    (((newCacheClient "f.db").close).fst).get "a" = .nilDeref ∧
    (((newCacheClient "f.db").close).fst).set "a" [1] 9 = .nilDeref ∧
    (((newCacheClient "f.db").close).fst).delete "a" = .nilDeref ∧
    (((newCacheClient "f.db").close).fst).listKeys = .nilDeref ∧
    (∀ c0 : Client, ((c0.close).fst).db = none) :=
  closed_ops_nil_deref ((newCacheClient "f.db").close).fst "a" [1] 9 rfl

set_option maxRecDepth 4096 in
/-- C4 counterexample: a 256-byte key exceeds the documented 255-byte bound,
yet `Set` succeeds on an open handle (no `ValidationError` — no length check
exists in the DDL, the queries or the client) and inserts a row. -/
theorem long_key_counterexample :
    255 < longKey.utf8ByteSize ∧
    (newCacheClient "p").set longKey [] 0 =
      .ok ⟨some (setValue DB.init longKey [] 0), "p"⟩ ∧
    (setValue DB.init longKey [] 0).rows.length = 1 := by
  refine ⟨?_, rfl, rfl⟩
  decide

/-- C4 amended: `Set` performs no key-length validation: on an open handle it
succeeds for every key — keys longer than 255 bytes included — and always
inserts exactly one new row. -/
theorem set_no_length_validation (c : Client) (d : DB) (k : String) (v : Bytes) (now : Nat)
    (h : c.db = some d) :
    c.set k v now = .ok ⟨some (setValue d k v now), c.path⟩ ∧
    (setValue d k v now).rows.length = d.rows.length + 1 := by
  constructor
  · unfold Client.set
    rw [h]
  · show (swapActive k d.rows ++ [_]).length = _
    rw [List.length_append]
    unfold swapActive
    rw [List.length_map]
    rfl

/-- C4 amended witness, applied at the over-long key itself. -/
theorem set_no_length_validation_witness :
    (newCacheClient "q").set longKey [] 5 =
      .ok ⟨some (setValue DB.init longKey [] 5), "q"⟩ ∧
    (setValue DB.init longKey [] 5).rows.length = DB.init.rows.length + 1 :=
  set_no_length_validation (newCacheClient "q") DB.init longKey [] 5 rfl

/-- C7: neither mutation touches historical rows: an inactive row, and more
generally any row of another key, survives `set-value` and `delete-key`
verbatim; and two consecutive `set-value` calls on a fresh key leave exactly
two rows for it, of which exactly the one holding the second value is
active. -/
theorem history_preserved (db : DB) (k k2 : String) (v v1 v2 : Bytes) (t t1 t2 : Nat) :
    (∀ r ∈ db.rows, r.is_active = false →
        r ∈ (setValue db k v t).rows ∧ r ∈ (deleteKey db k).rows) ∧
    (∀ r ∈ db.rows, r.key ≠ k →
        r ∈ (setValue db k v t).rows ∧ r ∈ (deleteKey db k).rows) ∧
    ((∀ r ∈ db.rows, r.key ≠ k2) →
      ((setValue (setValue db k2 v1 t1) k2 v2 t2).rows.filter
          (fun r => r.key = k2)).length = 2 ∧
      (setValue (setValue db k2 v1 t1) k2 v2 t2).rows.filter
          (fun r => r.key = k2 ∧ r.is_active = true) =
        [⟨db.nextRowid + 1, t2, true, k2, v2⟩]) := by
  refine ⟨?_, ?_, ?_⟩
  · intro r hr hinact
    have hcond : ¬(r.key = k ∧ r.is_active = true) := by
      intro hc
      rw [hinact] at hc
      exact Bool.noConfusion hc.2
    exact ⟨List.mem_append_left _ (mem_swapActive_of_not k r db.rows hr hcond),
      mem_swapActive_of_not k r db.rows hr hcond⟩
  · intro r hr hne
    have hcond : ¬(r.key = k ∧ r.is_active = true) := fun hc => hne hc.1
    exact ⟨List.mem_append_left _ (mem_swapActive_of_not k r db.rows hr hcond),
      mem_swapActive_of_not k r db.rows hr hcond⟩
  · intro hno
    have hp0 : db.rows.filter (fun r => r.key = k2) = [] := by
      rw [List.filter_eq_nil_iff]
      intro a ha
      simpa using hno a ha
    constructor
    · unfold setValue
      dsimp only
      rw [List.filter_append, List.length_append, filter_key_swapActive,
        List.filter_append, List.length_append, filter_key_swapActive, hp0]
      simp
    · unfold setValue
      dsimp only
      rw [List.filter_append, filter_swapActive_self]
      simp

/-- C7 witness: inactive-row survival at a concrete state, and the concrete
two-sets scenario. -/
theorem history_preserved_witness :
    ((⟨1, 0, false, "a", [1]⟩ : Row) ∈
        (setValue (deleteKey (setValue DB.init "a" [1] 0) "a") "b" [2] 1).rows) ∧
    ((setValue (setValue DB.init "a" [1] 1) "a" [2] 2).rows.filter
        (fun r => r.key = "a")).length = 2 ∧
    (setValue (setValue DB.init "a" [1] 1) "a" [2] 2).rows.filter
        (fun r => r.key = "a" ∧ r.is_active = true) = [⟨2, 2, true, "a", [2]⟩] := by
  refine ⟨?_, ?_, ?_⟩
  · exact ((history_preserved (deleteKey (setValue DB.init "a" [1] 0) "a") "b" "x" [2] [] []
      1 0 0).1 ⟨1, 0, false, "a", [1]⟩ (by decide) rfl).1
  · exact ((history_preserved DB.init "x" "a" [] [1] [2] 0 1 2).2.2 (by simp [DB.init])).1
  · exact ((history_preserved DB.init "x" "a" [] [1] [2] 0 1 2).2.2 (by simp [DB.init])).2

/-- C10: deactivation is permanent: an inactive row survives any finite
sequence of operations verbatim (still inactive, never revived); each single
mutation only keeps rows, retires an active row (a 1-to-0 write on
`is_active`), or appends a brand-new active row under the fresh rowid — and
on reachable states that rowid is held by no existing row. -/
theorem inactive_permanent (db db' : DB) (r : Row) :
    (Steps db db' → r ∈ db.rows → r.is_active = false → r ∈ db'.rows) ∧
    (Step db db' → ∀ r' ∈ db'.rows,
        r' ∈ db.rows ∨
        (∃ s ∈ db.rows, s.is_active = true ∧ r' = { s with is_active := false }) ∨
        (r'.is_active = true ∧ r'.rowid = db.nextRowid)) ∧
    (Reachable db → ∀ s ∈ db.rows, s.rowid < db.nextRowid) := by
  have hstep : ∀ {a b : DB}, Step a b → ∀ {x : Row}, x ∈ a.rows → x.is_active = false →
      x ∈ b.rows := by
    intro a b hs x hx hinact
    have hcond : ∀ k0, ¬(x.key = k0 ∧ x.is_active = true) := by
      intro k0 hc
      rw [hinact] at hc
      exact Bool.noConfusion hc.2
    cases hs with
    | set k0 v0 n0 =>
      exact List.mem_append_left _ (mem_swapActive_of_not k0 x a.rows hx (hcond k0))
    | del k0 =>
      exact mem_swapActive_of_not k0 x a.rows hx (hcond k0)
    | readGet k0 => exact hx
    | readList => exact hx
  refine ⟨?_, ?_, ?_⟩
  · intro hsteps
    induction hsteps with
    | refl =>
      intro hx _
      exact hx
    | tail hab hbc ih =>
      intro hx hinact
      exact hstep hbc (ih hx hinact) hinact
  · intro hs r' hr'
    cases hs with
    | set k0 v0 n0 =>
      rcases List.mem_append.mp hr' with hr' | hr'
      · unfold swapActive at hr'
        rw [List.mem_map] at hr'
        obtain ⟨s, hs1, rfl⟩ := hr'
        by_cases hc : s.key = k0 ∧ s.is_active = true
        · refine Or.inr (Or.inl ⟨s, hs1, hc.2, ?_⟩)
          unfold retireIf
          rw [if_pos hc]
        · rw [retireIf_of_not k0 s hc]
          exact Or.inl hs1
      · rcases List.mem_singleton.mp hr' with rfl
        exact Or.inr (Or.inr ⟨rfl, rfl⟩)
    | del k0 =>
      unfold deleteKey swapActive at hr'
      rw [List.mem_map] at hr'
      obtain ⟨s, hs1, rfl⟩ := hr'
      by_cases hc : s.key = k0 ∧ s.is_active = true
      · refine Or.inr (Or.inl ⟨s, hs1, hc.2, ?_⟩)
        unfold retireIf
        rw [if_pos hc]
      · rw [retireIf_of_not k0 s hc]
        exact Or.inl hs1
    | readGet k0 => exact Or.inl hr'
    | readList => exact Or.inl hr'
  · intro hreach
    exact (reachable_rowids hreach).1

/-- C10 witness: a retired row survives a later set of another key, the
step characterization at a concrete step, and rowid freshness at a concrete
reachable state. -/
theorem inactive_permanent_witness :
    ((⟨1, 0, false, "a", [1]⟩ : Row) ∈
        (setValue (deleteKey (setValue DB.init "a" [1] 0) "a") "b" [2] 1).rows) ∧
    ((⟨1, 0, true, "a", [1]⟩ : Row) ∈ DB.init.rows ∨
      (∃ s ∈ DB.init.rows, s.is_active = true ∧
        (⟨1, 0, true, "a", [1]⟩ : Row) = { s with is_active := false }) ∨
      ((⟨1, 0, true, "a", [1]⟩ : Row).is_active = true ∧
        (⟨1, 0, true, "a", [1]⟩ : Row).rowid = DB.init.nextRowid)) ∧
    (⟨1, 0, true, "a", [1]⟩ : Row).rowid < (setValue DB.init "a" [1] 0).nextRowid := by
  refine ⟨?_, ?_, ?_⟩
  · exact (inactive_permanent (deleteKey (setValue DB.init "a" [1] 0) "a")
      (setValue (deleteKey (setValue DB.init "a" [1] 0) "a") "b" [2] 1)
      ⟨1, 0, false, "a", [1]⟩).1
      (Steps.tail (Steps.refl _) (Step.set _ "b" [2] 1)) (by decide) rfl
  · exact (inactive_permanent DB.init (setValue DB.init "a" [1] 0)
      ⟨1, 0, true, "a", [1]⟩).2.1 (Step.set DB.init "a" [1] 0)
      ⟨1, 0, true, "a", [1]⟩ (by decide)
  · exact (inactive_permanent (setValue DB.init "a" [1] 0) DB.init
      ⟨1, 0, true, "a", [1]⟩).2.2 (Reachable.set "a" [1] 0 Reachable.init)
      ⟨1, 0, true, "a", [1]⟩ (by decide)

end Squeakyv
